import Mathlib

/-!
Verification of the bitsplain annotating-parser core.

This file gives a shallow embedding, in Lean 4, of the parsing-and-annotation
core of the bitsplain repository:

* the tree/value data model (`src/crates/bitsplain/src/tree.rs`,
  `src/crates/bitsplain/src/value.rs`),
* the annotation DSL (`src/crates/bitsplain/src/dsl.rs`),
* the annotated span and its finalization passes
  (`src/crates/bitsplain/src/parse.rs`),
* the `parse` / `with` / `alt` / `flags` combinator layer
  (`src/crates/bitsplain/src/parse.rs`),
* input detection and the decode driver
  (`src/crates/bitsplain/src/binary.rs`, `src/crates/bitsplain/src/decode.rs`),
* the `decoder!` macro composing a guard with a parser
  (`src/bitsplain/src/lib.rs`, `src/bitsplain-lib/src/lib.rs`).

Modelling conventions:

* Bytes are `Nat`s, byte strings are `List Nat`; `usize` is `Nat`.
* Rust `HashMap<&'static str, String>` is an association list
  `List (String × String)` with insert-replaces-existing discipline; the
  claims only ever read, insert and remove single keys, for which the two
  are observationally equal.
* The shared (`Rc<RefCell<_>>`) appendix list is threaded explicitly:
  every primitive that in Rust pushes to the shared cell returns a span
  whose `appendices` field carries the push, and the `alt` combinator
  hands the appendices produced by the discarded branch to the surviving
  branch, which is exactly the observable behaviour of the shared cell in
  the single-threaded parser.
* Rust panics (the `unreachable!` in `flags` and the debug-mode underflow
  of `span.next_index - 1` in `parse`) are modelled as `Except.error ()`;
  `nom` parser failure is `Except.ok none`; success is `Except.ok (some _)`.
* Payload types provided by external crates (addresses, signatures, keys)
  are simplified to byte lists / strings; no claim inspects them.
* Field name `from` of `LeafLocation`/`Appendix` becomes `from_` (`from`
  is a Lean keyword), `to` becomes `to_`.
-/

namespace Bitsplain

/-- Value: tagged union of presentation-ready primitives (value.rs). -/
inductive Value where
  | addr (a : Option String)
  | num (n : Int)
  | size (n : Nat)
  | bytes (b : List Nat)
  | script (b : List Nat)
  | signature (b : List Nat)
  | publicKey (b : List Nat)
  | text (t : String) (fg : Option (Nat × Nat × Nat)) (bg : Option (Nat × Nat × Nat))
  | hash (b : List Nat)
  | timestamp (t : Int)
  | sat (n : Int)
  | alt (v w : Value)
  | nil
deriving DecidableEq, Repr

/-- Tag attached to leaf or group (tree.rs). -/
structure Tag where
  label : String
  color : Option String
  doc : Option String
deriving DecidableEq, Repr

/-- External reference attached to an annotation (dsl.rs `Reference`). -/
inductive Reference where
  | www (url : String)
  | bip (n : Nat)
deriving DecidableEq, Repr

/-- Information: the payload of every node (tree.rs). -/
structure Information where
  label : String
  data : List (String × String)
  tags : List Tag
  refs : List Reference
  value : Value
  doc : Option String
  splain : Option String
deriving DecidableEq, Repr

/-- LeafLocation (tree.rs): half-open byte range plus real-leaf ordinal. -/
structure LeafLocation where
  from_ : Nat
  to_ : Nat
  index : Nat
deriving DecidableEq, Repr

/-- GroupLocation (tree.rs). -/
structure GroupLocation where
  byte_from : Nat
  byte_to : Nat
  index_from : Nat
  index_to : Nat
deriving DecidableEq, Repr

/-- RealLeaf (tree.rs). -/
structure RealLeaf where
  path : List String
  location : LeafLocation
  information : Information
deriving DecidableEq, Repr

/-- VirtualLeaf (tree.rs). -/
structure VirtualLeaf where
  path : List String
  information : Information
deriving DecidableEq, Repr

/-- Leaf (tree.rs). -/
inductive Leaf where
  | real (r : RealLeaf)
  | virtual (v : VirtualLeaf)
deriving DecidableEq, Repr

/-- Node (tree.rs): a group with children, or a leaf. -/
inductive Node where
  | group (path : List String) (location : GroupLocation)
      (information : Information) (children : List Node)
  | leaf (l : Leaf)
deriving Repr

/-- Tree (tree.rs): ordered sequence of root nodes. -/
structure Tree where
  nodes : List Node

/-- Association-list lookup modelling `HashMap::get`. -/
def dataGet (k : String) (d : List (String × String)) : Option String :=
  (d.find? (fun p => p.1 == k)).map (fun p => p.2)

/-- Association-list removal modelling `HashMap::remove`. -/
def dataRemove (k : String) (d : List (String × String)) : List (String × String) :=
  d.filter (fun p => !(p.1 == k))

/-- Association-list insertion modelling `HashMap::insert` (replaces). -/
def dataInsert (k v : String) (d : List (String × String)) : List (String × String) :=
  (k, v) :: dataRemove k d

/-- Information::has_data (tree.rs). -/
def Information.has_data (info : Information) (k v : String) : Bool :=
  match dataGet k info.data with
  | some x => x == v
  | none => false

/-- Make (dsl.rs): a generator for a `V` out of a parsed `T`. -/
inductive Make (T V : Type) where
  | fnc (f : T → V)
  | static (v : V)
  | empty

/-- Make<T, Value>::resolve (dsl.rs). -/
def Make.resolveValue {T : Type} (m : Make T Value) (input : T) : Value :=
  match m with
  | Make.fnc f => f input
  | Make.static v => v
  | Make.empty => Value.nil

/-- Make<T, Value>::resolve_static (dsl.rs). -/
def Make.resolveStaticValue {T : Type} (m : Make T Value) : Option Value :=
  match m with
  | Make.static v => some v
  | _ => none

/-- Make<T, Tag>::resolve (dsl.rs). -/
def Make.resolveTag {T : Type} (m : Make T Tag) (input : T) : Option Tag :=
  match m with
  | Make.fnc f => some (f input)
  | Make.static t => some t
  | Make.empty => none

/-- Make<T, String>::resolve (dsl.rs). -/
def Make.resolveString {T : Type} (m : Make T String) (input : T) : Option String :=
  match m with
  | Make.fnc f => some (f input)
  | Make.static v => some v
  | Make.empty => none

/-- Make<T, String>::resolve_static (dsl.rs). -/
def Make.resolveStaticString {T : Type} (m : Make T String) : Option String :=
  match m with
  | Make.static v => some v
  | _ => none

/-- Ann (dsl.rs): collection of annotations of a parsed field. -/
structure Ann (T : Type) where
  label : String
  value : Make T Value
  doc : Option String
  refs : List Reference
  tags : List (Make T Tag)
  splain : Make T String

/-- Relative placement of an appendix (parse.rs `Place`). -/
inductive Place where
  | after
  | before
deriving DecidableEq, Repr

/-- Appendix (parse.rs): a pending retroactive annotation. -/
structure Appendix where
  from_ : Nat
  to_ : Nat
  place : Place
  information : Information
deriving DecidableEq, Repr

/-- Bookmark (parse.rs): captured `last_range`. -/
structure Bookmark where
  val : Option (Nat × Nat)
deriving DecidableEq, Repr

/-- Annotated span (parse.rs `Annotated<Fragment>`), specialized to byte
lists (`Annotated<&[u8]>`).  The `appendices` field models the contents of
the shared `Rc<RefCell<Vec<Appendix>>>` cell at this point of the run. -/
structure Annotated where
  next_index : Nat
  next_offset : Nat
  next_fragment : List Nat
  tree : List Node
  last_range : Option (Nat × Nat)
  data : List (String × String)
  tags : List Tag
  appendices : List Appendix

/-- Annotated::new (parse.rs). -/
def Annotated.new (fragment : List Nat) : Annotated :=
  { next_index := 0
    next_offset := 0
    next_fragment := fragment
    tree := []
    data := []
    tags := []
    appendices := []
    last_range := none }

/-- Annotated::bookmark (parse.rs). -/
def Annotated.bookmark (s : Annotated) : Bookmark :=
  { val := s.last_range }

/-- Information built by insert/insert_at out of a static annotation
(parse.rs lines 97-105 and 141-149). -/
def staticInformation (ann : Ann Empty) : Information :=
  { label := ann.label
    value := (ann.value.resolveStaticValue).getD Value.nil
    doc := ann.doc
    refs := ann.refs
    splain := ann.splain.resolveStaticString
    data := []
    tags := [] }

/-- Annotated::insert_at (parse.rs): push an appendix at the bookmark, a
no-op when the bookmark holds no range. -/
def Annotated.insert_at (s : Annotated) (bk : Bookmark) (ann : Ann Empty) : Annotated :=
  match bk.val with
  | none => s
  | some (f, t) =>
    { s with appendices := s.appendices ++
        [{ from_ := f, to_ := t, place := Place.after, information := staticInformation ann }] }

/-- Annotated::insert (parse.rs): push an appendix at the current
`last_range`, a no-op when no range was produced yet. -/
def Annotated.insert (s : Annotated) (ann : Ann Empty) : Annotated :=
  match s.last_range with
  | none => s
  | some (f, t) =>
    { s with appendices := s.appendices ++
        [{ from_ := f, to_ := t, place := Place.after, information := staticInformation ann }] }

/-- Annotated::with (parse.rs): set an auxiliary-data key on the span. -/
def Annotated.withData (s : Annotated) (k v : String) : Annotated :=
  { s with data := dataInsert k v s.data }

/-- Annotated::add_tag (parse.rs). -/
def Annotated.add_tag (s : Annotated) (t : Tag) : Annotated :=
  { s with tags := s.tags ++ [t] }

/-- Whether an appendix matches a real-leaf byte range with place After
(the filter of parse.rs `inject_appendices`, line 175). -/
def appMatches (f t : Nat) (a : Appendix) : Bool :=
  decide (a.place = Place.after) && decide (a.from_ = f) && decide (a.to_ = t)

/-- Virtual leaf materialized from an appendix (parse.rs lines 177-181). -/
def appToVirtual (a : Appendix) : Node :=
  Node.leaf (Leaf.virtual { information := a.information, path := [] })

/-- Annotated::inject_appendices (parse.rs): after every real leaf whose
byte range matches an appendix with place After, insert a virtual leaf. -/
def injectAppendices (app : List Appendix) : List Node → List Node
  | [] => []
  | Node.group p loc info ch :: rest =>
    Node.group p loc info (injectAppendices app ch) :: injectAppendices app rest
  | Node.leaf (Leaf.real r) :: rest =>
    Node.leaf (Leaf.real r) ::
      ((app.filter (appMatches r.location.from_ r.location.to_)).map appToVirtual
        ++ injectAppendices app rest)
  | Node.leaf (Leaf.virtual v) :: rest =>
    Node.leaf (Leaf.virtual v) :: injectAppendices app rest

/-- Annotated::inject_paths (parse.rs): each node's path becomes its old
path followed by the prefix and its zero-based position; groups recurse
with their own new path as prefix.  The counter `i` is the position of the
head of the list among its siblings. -/
def injectPathsAux (pre : List String) (i : Nat) : List Node → List Node
  | [] => []
  | Node.leaf (Leaf.real r) :: rest =>
    Node.leaf (Leaf.real { r with path := r.path ++ pre ++ [toString i] })
      :: injectPathsAux pre (i + 1) rest
  | Node.leaf (Leaf.virtual v) :: rest =>
    Node.leaf (Leaf.virtual { v with path := v.path ++ pre ++ [toString i] })
      :: injectPathsAux pre (i + 1) rest
  | Node.group p loc info ch :: rest =>
    Node.group (p ++ pre ++ [toString i]) loc info
        (injectPathsAux (p ++ pre ++ [toString i]) 0 ch)
      :: injectPathsAux pre (i + 1) rest

/-- Annotated::inject_paths entry point (parse.rs line 243). -/
def injectPaths (tree : List Node) : List Node :=
  injectPathsAux [] 0 tree

/-- Label/data rewrite of a leaf's information in `bake_annotations`
(parse.rs lines 212-221): a present "annotation" entry moves into the
label and is removed. -/
def bakeLeafInfo (info : Information) : Information :=
  match dataGet "annotation" info.data with
  | some x => { info with label := x, data := dataRemove "annotation" info.data }
  | none => info

mutual

/-- Annotated::bake_annotations (parse.rs): replace labels by the
"annotation" data entry if present; groups without it that carry
"list" = "enumerate" get the enumeration counter as label.  Children are
baked with their zero-based position as counter. -/
def bakeAnns (enumeration : Nat) : Node → Node
  | Node.leaf (Leaf.real r) =>
    Node.leaf (Leaf.real { r with information := bakeLeafInfo r.information })
  | Node.leaf (Leaf.virtual v) =>
    Node.leaf (Leaf.virtual { v with information := bakeLeafInfo v.information })
  | Node.group p loc info ch =>
    Node.group p loc
      (match dataGet "annotation" info.data with
       | some x => { info with label := x, data := dataRemove "annotation" info.data }
       | none =>
         if info.has_data "list" "enumerate" then { info with label := toString enumeration }
         else info)
      (bakeList 0 ch)

/-- Baking of a list of siblings: child at position `i` is baked with
counter `i` (parse.rs lines 232-235). -/
def bakeList (i : Nat) : List Node → List Node
  | [] => []
  | c :: rest => bakeAnns i c :: bakeList (i + 1) rest

end

/-- Annotated::annotations (parse.rs): inject appendices, inject paths,
bake labels (each root with counter 0), producing the public tree. -/
def Annotated.annotations (s : Annotated) : Tree :=
  { nodes := (injectPaths (injectAppendices s.appendices s.tree)).map (bakeAnns 0) }

/-- Result of running an annotating parser: `Except.error ()` models a
Rust panic, `Except.ok none` a `nom` parse failure, `Except.ok (some _)`
success with the continuation span and the parsed value. -/
abbrev PRes (α : Type) := Except Unit (Option (Annotated × α))

/-- The core combinator `parse` (parse.rs lines 439-518): record entry
offset and index, detach the outer tree, run the inner parser on an
empty-tree span; on success emit a real leaf (empty inner tree) or a group
(non-empty inner tree), resolve the annotation against the output, append
the node to the outer tree and reset per-span data/tags.  The group branch
computes `span.next_index - 1`; `next_index = 0` there is the usize
underflow, modelled as a panic. -/
def parseE {α : Type} (inner : Annotated → PRes α) (ann : Ann α) (input : Annotated) :
    PRes α :=
  match inner { input with tree := [] } with
  | Except.error e => Except.error e
  | Except.ok none => Except.ok none
  | Except.ok (some (span, out)) =>
    match span.tree with
    | [] =>
      Except.ok (some
        ({ next_index := span.next_index + 1
           next_offset := span.next_offset
           next_fragment := span.next_fragment
           data := []
           tags := []
           tree := input.tree ++
             [Node.leaf (Leaf.real
               { path := []
                 location :=
                   { from_ := input.next_offset
                     to_ := span.next_offset
                     index := input.next_index }
                 information :=
                   { label := ann.label
                     data := span.data
                     tags := ann.tags.filterMap (fun t => t.resolveTag out)
                     refs := ann.refs
                     value := ann.value.resolveValue out
                     doc := ann.doc
                     splain := ann.splain.resolveString out } })]
           appendices := span.appendices
           last_range := some (input.next_offset, span.next_offset) }, out))
    | c :: cs =>
      if span.next_index = 0 then Except.error ()
      else
        Except.ok (some
          ({ next_index := span.next_index
             next_offset := span.next_offset
             next_fragment := span.next_fragment
             data := []
             tags := []
             tree := input.tree ++
               [Node.group []
                 { byte_from := input.next_offset
                   byte_to := span.next_offset
                   index_from := input.next_index
                   index_to := span.next_index - 1 }
                 { label := ann.label
                   data := span.data
                   tags := span.tags
                   refs := ann.refs
                   value := ann.value.resolveValue out
                   doc := ann.doc
                   splain := ann.splain.resolveString out }
                 (c :: cs)]
             appendices := span.appendices
             last_range := some (input.next_offset, span.next_offset) }, out))

/-- Big-endian numeric value of a byte list, the output of the primitive
`nom` number readers. -/
def beNat (l : List Nat) : Nat :=
  l.foldl (fun acc b => acc * 256 + b) 0

/-- The `Slice` instance of `Annotated` (parse.rs lines 364-385) applied
as `slice(n..)`: advance offset and fragment, reset per-span data and
tags, keep tree, appendices and last range. -/
def sliceDrop (n : Nat) (s : Annotated) : Annotated :=
  { next_index := s.next_index
    next_offset := s.next_offset + n
    next_fragment := s.next_fragment.drop n
    data := []
    tags := []
    tree := s.tree
    appendices := s.appendices
    last_range := s.last_range }

/-- Deep grammar of the annotating parsers a decoder is built from: the
primitive byte readers, `success`, failing validators, and the `parse`,
`with`, sequencing, `alt`, `flags`, `add_tag` and `insert` combinators of
parse.rs. -/
inductive PB where
  | takeN (n : Nat)
  | succeed (v : Nat)
  | failP
  | parseA (inner : PB) (ann : Ann Nat)
  | withA (key value : String) (inner : PB)
  | andThen (p q : PB)
  | altA (primary alternate : PB)
  | flagsA (num : PB) (anns : List (Nat × Ann Nat))
  | tagA (t : Tag) (inner : PB)
  | insertA (ann : Ann Empty)

/-- One step of the fold in `flags` (parse.rs lines 426-433): wrap the
always-succeeding `success(numeric & 1 << idx > 0)` in `parse`; the
`unreachable!` branch is a panic. -/
def flagsStep (numeric : Nat) (s : Annotated) (pr : Nat × Ann Nat) : Except Unit Annotated :=
  match parseE (fun sp => Except.ok (some (sp, if numeric.testBit pr.1 then 1 else 0)))
      pr.2 s with
  | Except.ok (some (span, _)) => Except.ok span
  | _ => Except.error ()

/-- The fold of `flags` over the declared bits, in declaration order. -/
def flagsFold (numeric : Nat) : List (Nat × Ann Nat) → Annotated → Except Unit Annotated
  | [], s => Except.ok s
  | a :: rest, s =>
    match flagsStep numeric s a with
    | Except.error e => Except.error e
    | Except.ok s2 => flagsFold numeric rest s2

/-- Interpreter of the parser grammar over annotated spans.  Outputs are
uniformly `Nat` (numeric readers return the big-endian value, `alt` pairs
its two outputs with `Nat.pair`). -/
def interp : PB → Annotated → PRes Nat
  | PB.takeN n, s =>
    if s.next_fragment.length < n then Except.ok none
    else Except.ok (some (sliceDrop n s, beNat (s.next_fragment.take n)))
  | PB.succeed v, s => Except.ok (some (s, v))
  | PB.failP, _ => Except.ok none
  | PB.parseA inner ann, s => parseE (fun x => interp inner x) ann s
  | PB.withA k v inner, s =>
    match interp inner s with
    | Except.ok (some (sp, out)) => Except.ok (some (sp.withData k v, out))
    | r => r
  | PB.andThen p q, s =>
    match interp p s with
    | Except.ok (some (sp, _)) => interp q sp
    | r => r
  | PB.altA primary alternate, s =>
    match interp alternate s with
    | Except.error e => Except.error e
    | Except.ok none => Except.ok none
    | Except.ok (some (sa, aOut)) =>
      match interp primary { s with appendices := sa.appendices } with
      | Except.error e => Except.error e
      | Except.ok none => Except.ok none
      | Except.ok (some (sp, pOut)) => Except.ok (some (sp, Nat.pair pOut aOut))
  | PB.flagsA num anns, s =>
    match interp num s with
    | Except.error e => Except.error e
    | Except.ok none => Except.ok none
    | Except.ok (some (sp, out)) =>
      match flagsFold out anns sp with
      | Except.error e => Except.error e
      | Except.ok sp2 => Except.ok (some (sp2, out))
  | PB.tagA t inner, s =>
    match interp inner s with
    | Except.ok (some (sp, out)) => Except.ok (some (sp.add_tag t, out))
    | r => r
  | PB.insertA ann, s => Except.ok (some (s.insert ann, 0))

/-- Binary (binary.rs): decoded bytes with information about origin. -/
inductive Binary where
  | hex (b : List Nat)
  | base58check (b : List Nat)
  | base64 (b : List Nat)
  | bech32 (hrp : String) (b : List Nat)
  | raw (b : List Nat)
deriving DecidableEq, Repr

/-- Binary's Deref to the underlying bytes (binary.rs). -/
def Binary.bytes : Binary → List Nat
  | Binary.hex b => b
  | Binary.base58check b => b
  | Binary.base64 b => b
  | Binary.bech32 _ b => b
  | Binary.raw b => b

/-- Input (decode.rs). -/
inductive Input where
  | string (s : String)
  | binary (b : List Nat)

/-- The primitive string/byte decoders supplied by external crates
(hex::decode, bech32::CheckedHrpstring, bitcoin::base58::decode_check,
base64::STANDARD.decode, String::from_utf8).  The repository's own code is
parametric in their behaviour, so they are fields of an environment. -/
structure StrEnv where
  hexDec : String → Option (List Nat)
  bech32Dec : String → Option (String × List Nat)
  base58Dec : String → Option (List Nat)
  base64Dec : String → Option (List Nat)
  utf8Dec : List Nat → Option String

/-- string_to_hex (binary.rs). -/
def string_to_hex (env : StrEnv) (s : String) : Option Binary :=
  (env.hexDec s).map Binary.hex

/-- string_to_bech32 (binary.rs): carries the HRP through. -/
def string_to_bech32 (env : StrEnv) (s : String) : Option Binary :=
  (env.bech32Dec s).map (fun p => Binary.bech32 p.1 p.2)

/-- string_to_base58 (binary.rs). -/
def string_to_base58 (env : StrEnv) (s : String) : Option Binary :=
  (env.base58Dec s).map Binary.base58check

/-- string_to_base64 (binary.rs). -/
def string_to_base64 (env : StrEnv) (s : String) : Option Binary :=
  (env.base64Dec s).map Binary.base64

/-- try_decode_string (decode.rs lines 127-134): the four string decoders
in their fixed order. -/
def try_decode_string (env : StrEnv) (s : String) : List (Option Binary) :=
  [string_to_hex env s, string_to_bech32 env s, string_to_base58 env s,
   string_to_base64 env s]

/-- input_to_binaries (decode.rs lines 96-122). -/
def input_to_binaries (env : StrEnv) : Input → List Binary
  | Input.string s => (try_decode_string env s).filterMap id
  | Input.binary b =>
    ((((env.utf8Dec b).map (fun s => try_decode_string env s)).getD [])
      ++ [some (Binary.raw b)]).filterMap id

/-- Decoder (decode.rs): registry entry with a decode function. -/
structure Decoder where
  title : String
  group : String
  symbol : String
  decode : Binary → Option Tree

/-- Candidate (decode.rs). -/
structure Candidate where
  decoder : Decoder
  annotations : Tree
  data : Binary

/-- Candidates one binary yields: registered decoders in order, keeping
the successes (the inner map-then-flatten of decode.rs lines 83-92). -/
def candidatesFor (ds : List Decoder) (b : Binary) : List Candidate :=
  ds.filterMap (fun d => (d.decode b).map (fun a =>
    { decoder := d, annotations := a, data := b }))

/-- decode_binaries (decode.rs lines 80-94). -/
def decode_binaries (ds : List Decoder) (binaries : List Binary) : List Candidate :=
  (binaries.flatMap (fun b => ds.map (fun d => (d.decode b).map (fun a =>
    ({ decoder := d, annotations := a, data := b } : Candidate))))).filterMap id

/-- decode_input (decode.rs lines 75-77). -/
def decode_input (env : StrEnv) (ds : List Decoder) (input : Input) : List Candidate :=
  decode_binaries ds (input_to_binaries env input)

/-- A registered decoder before the `decoder!` macro assembles it: guard
pattern (with optional predicate) plus parser function (lib.rs). -/
structure DecoderSpec where
  title : String
  group : String
  symbol : String
  guard : Binary → Bool
  parser : PB

/-- The decode closure the `decoder!` macro produces (lib.rs lines 61-74):
`Some(tree)` only when the guard matches, the parser succeeds and no input
remains.  The catch-all branch collapses `nom` failure to `None` (the
`.ok()` call); interpreter panics cannot occur (see `interp_no_panic`). -/
def DecoderSpec.decodeFn (d : DecoderSpec) (b : Binary) : Option Tree :=
  if d.guard b then
    match interp d.parser (Annotated.new b.bytes) with
    | Except.ok (some (x, _)) =>
      if 0 < x.next_fragment.length then none else some x.annotations
    | _ => none
  else none

/-- Registry entry assembled by the `decoder!` macro. -/
def mkDecoder (d : DecoderSpec) : Decoder :=
  { title := d.title, group := d.group, symbol := d.symbol, decode := d.decodeFn }

/-- Panic-faithful variant of the macro's decode closure: a panic in the
parser propagates as `Except.error` instead of being collapsed. -/
def DecoderSpec.decodeFnE (d : DecoderSpec) (b : Binary) : Except Unit (Option Tree) :=
  if d.guard b then
    match interp d.parser (Annotated.new b.bytes) with
    | Except.error e => Except.error e
    | Except.ok none => Except.ok none
    | Except.ok (some (x, _)) =>
      Except.ok (if 0 < x.next_fragment.length then none else some x.annotations)
  else Except.ok none

/-- Panic-faithful run of the registered decoders over one binary. -/
def decodersRunE : List DecoderSpec → Binary → Except Unit (List Candidate)
  | [], _ => Except.ok []
  | d :: rest, b =>
    match d.decodeFnE b with
    | Except.error e => Except.error e
    | Except.ok none => decodersRunE rest b
    | Except.ok (some t) =>
      match decodersRunE rest b with
      | Except.error e => Except.error e
      | Except.ok cs =>
        Except.ok (({ decoder := mkDecoder d, annotations := t, data := b } : Candidate) :: cs)

/-- Panic-faithful decode_binaries over macro-assembled decoders. -/
def decode_binariesE (ds : List DecoderSpec) : List Binary → Except Unit (List Candidate)
  | [] => Except.ok []
  | b :: rest =>
    match decodersRunE ds b with
    | Except.error e => Except.error e
    | Except.ok cs =>
      match decode_binariesE ds rest with
      | Except.error e => Except.error e
      | Except.ok cs2 => Except.ok (cs ++ cs2)

/-- Panic-faithful decode_input over macro-assembled decoders. -/
def decode_inputE (env : StrEnv) (ds : List DecoderSpec) (input : Input) :
    Except Unit (List Candidate) :=
  decode_binariesE ds (input_to_binaries env input)

mutual

/-- Indices of the real leaves of a node's subtree, in parse (depth-first)
order. -/
def nodeIndices : Node → List Nat
  | Node.group _ _ _ ch => treeIndices ch
  | Node.leaf (Leaf.real r) => [r.location.index]
  | Node.leaf (Leaf.virtual _) => []

/-- Indices of the real leaves of a forest, in parse order. -/
def treeIndices : List Node → List Nat
  | [] => []
  | n :: rest => nodeIndices n ++ treeIndices rest

end

mutual

/-- Leaves of a node's subtree in depth-first order (tree.rs
`Tree::tree_leaves`). -/
def nodeLeaves : Node → List Leaf
  | Node.group _ _ _ ch => treeLeavesL ch
  | Node.leaf l => [l]

/-- Leaves of a forest in depth-first order. -/
def treeLeavesL : List Node → List Leaf
  | [] => []
  | n :: rest => nodeLeaves n ++ treeLeavesL rest

end

/-- Real leaves of a forest (tree.rs `Tree::real_leaves`). -/
def realLeavesL (l : List Node) : List RealLeaf :=
  (treeLeavesL l).filterMap (fun lf =>
    match lf with
    | Leaf.real r => some r
    | Leaf.virtual _ => none)

/-- Tree::leaves (tree.rs). -/
def Tree.leaves (t : Tree) : List Leaf :=
  treeLeavesL t.nodes

/-- Tree::real_leaves (tree.rs). -/
def Tree.real_leaves (t : Tree) : List RealLeaf :=
  realLeavesL t.nodes

mutual

/-- Count of virtual leaves carrying a given information in a node. -/
def nodeVirtCount (info : Information) : Node → Nat
  | Node.group _ _ _ ch => treeVirtCount info ch
  | Node.leaf (Leaf.real _) => 0
  | Node.leaf (Leaf.virtual v) => if v.information = info then 1 else 0

/-- Count of virtual leaves carrying a given information in a forest. -/
def treeVirtCount (info : Information) : List Node → Nat
  | [] => 0
  | n :: rest => nodeVirtCount info n + treeVirtCount info rest

end

theorem treeIndices_append :
    ∀ l1 l2 : List Node, treeIndices (l1 ++ l2) = treeIndices l1 ++ treeIndices l2 := by
  intro l1 l2
  induction l1 with
  | nil => simp [treeIndices]
  | cons n rest ih => simp [treeIndices, ih]

theorem treeLeavesL_append :
    ∀ l1 l2 : List Node, treeLeavesL (l1 ++ l2) = treeLeavesL l1 ++ treeLeavesL l2 := by
  intro l1 l2
  induction l1 with
  | nil => simp [treeLeavesL]
  | cons n rest ih => simp [treeLeavesL, ih]

theorem treeVirtCount_append (info : Information) :
    ∀ l1 l2 : List Node,
      treeVirtCount info (l1 ++ l2) = treeVirtCount info l1 + treeVirtCount info l2 := by
  intro l1 l2
  induction l1 with
  | nil => simp [treeVirtCount]
  | cons n rest ih => simp [treeVirtCount, ih]; omega

mutual

/-- Real-leaf indices are the location indices of the real leaves, in the
same depth-first order (node version). -/
theorem nodeLeaves_indices (n : Node) :
    ((nodeLeaves n).filterMap (fun lf =>
      match lf with
      | Leaf.real r => some r
      | Leaf.virtual _ => none)).map (fun r => r.location.index) = nodeIndices n := by
  match n with
  | Node.group p loc info ch =>
    simp only [nodeLeaves, nodeIndices]
    exact treeLeaves_indices ch
  | Node.leaf (Leaf.real r) => simp [nodeLeaves, nodeIndices]
  | Node.leaf (Leaf.virtual v) => simp [nodeLeaves, nodeIndices]

/-- Real-leaf indices are the location indices of the real leaves, in the
same depth-first order (forest version). -/
theorem treeLeaves_indices (l : List Node) :
    (realLeavesL l).map (fun r => r.location.index) = treeIndices l := by
  match l with
  | [] => simp [realLeavesL, treeLeavesL, treeIndices]
  | n :: rest =>
    have h1 := nodeLeaves_indices n
    have h2 := treeLeaves_indices rest
    simp only [realLeavesL, treeLeavesL, treeIndices, List.filterMap_append,
      List.map_append]
    rw [h1]
    simpa [realLeavesL] using h2

end

/-- Postcondition relating the entry and exit spans of every successful
run of a grammar parser: the index never decreases, the shared appendix
list only grows at the end, and the tree is extended by new nodes whose
real-leaf indices are exactly the freshly consumed ones, each new node
containing at least one real leaf. -/
def Post (S S' : Annotated) : Prop :=
  S.next_index ≤ S'.next_index ∧
  (∃ ext, S'.appendices = S.appendices ++ ext) ∧
  (∃ new, S'.tree = S.tree ++ new ∧
    treeIndices new = List.range' S.next_index (S'.next_index - S.next_index) ∧
    ∀ n ∈ new, nodeIndices n ≠ [])

theorem rangeSplit (a k1 k2 : Nat) :
    List.range' a (k1 + k2) = List.range' a k1 ++ List.range' (a + k1) k2 := by
  have h := List.range'_append a k1 k2 1
  rw [Nat.one_mul] at h
  rw [Nat.add_comm k1 k2, ← h]

theorem post_same {S S' : Annotated} (hi : S'.next_index = S.next_index)
    (ha : S'.appendices = S.appendices) (ht : S'.tree = S.tree) : Post S S' := by
  refine ⟨Nat.le_of_eq hi.symm, ⟨[], by simp [ha]⟩, [], by simp [ht], ?_, by simp⟩
  simp [hi, treeIndices]

theorem post_refl (S : Annotated) : Post S S :=
  post_same rfl rfl rfl

theorem post_trans {S1 S2 S3 : Annotated} (h12 : Post S1 S2) (h23 : Post S2 S3) :
    Post S1 S3 := by
  obtain ⟨hle12, ⟨ext1, hap1⟩, new1, ht1, hi1, hm1⟩ := h12
  obtain ⟨hle23, ⟨ext2, hap2⟩, new2, ht2, hi2, hm2⟩ := h23
  refine ⟨Nat.le_trans hle12 hle23, ⟨ext1 ++ ext2, by rw [hap2, hap1, List.append_assoc]⟩,
    new1 ++ new2, by rw [ht2, ht1, List.append_assoc], ?_, ?_⟩
  · rw [treeIndices_append, hi1, hi2]
    have hk : S3.next_index - S1.next_index =
        (S2.next_index - S1.next_index) + (S3.next_index - S2.next_index) := by omega
    have ha : S1.next_index + (S2.next_index - S1.next_index) = S2.next_index := by omega
    rw [hk, rangeSplit, ha]
  · intro n hn
    rcases List.mem_append.mp hn with h | h
    · exact hm1 n h
    · exact hm2 n h

theorem new_nil_of_indices_nil {new : List Node}
    (h : treeIndices new = []) (hm : ∀ n ∈ new, nodeIndices n ≠ []) : new = [] := by
  cases new with
  | nil => rfl
  | cons n rest =>
    exfalso
    have := hm n (by simp)
    simp only [treeIndices] at h
    exact this (List.append_eq_nil.mp h).1

theorem flagsStep_sound (numeric : Nat) (S : Annotated) (pr : Nat × Ann Nat) :
    ∃ S2, flagsStep numeric S pr = Except.ok S2 ∧ Post S S2 := by
  refine ⟨_, rfl, ?_⟩
  refine ⟨Nat.le_succ _, ⟨[], by simp⟩, ?_⟩
  refine ⟨[Node.leaf (Leaf.real
    { path := []
      location := { from_ := S.next_offset, to_ := S.next_offset, index := S.next_index }
      information :=
        { label := pr.2.label
          data := S.data
          tags := pr.2.tags.filterMap (fun t =>
            t.resolveTag (if numeric.testBit pr.1 then 1 else 0))
          refs := pr.2.refs
          value := pr.2.value.resolveValue (if numeric.testBit pr.1 then 1 else 0)
          doc := pr.2.doc
          splain := pr.2.splain.resolveString (if numeric.testBit pr.1 then 1 else 0) } })],
    rfl, ?_, by simp [nodeIndices]⟩
  have h1 : S.next_index + 1 - S.next_index = 1 := by omega
  simp [treeIndices, nodeIndices, h1]

theorem flagsFold_sound (numeric : Nat) :
    ∀ (anns : List (Nat × Ann Nat)) (S : Annotated),
      ∃ S2, flagsFold numeric anns S = Except.ok S2 ∧ Post S S2 := by
  intro anns
  induction anns with
  | nil => intro S; exact ⟨S, rfl, post_refl S⟩
  | cons a rest ih =>
    intro S
    obtain ⟨S1, h1, hp1⟩ := flagsStep_sound numeric S a
    obtain ⟨S2, h2, hp2⟩ := ih S1
    refine ⟨S2, ?_, post_trans hp1 hp2⟩
    simp only [flagsFold, h1, h2]

theorem interp_sound (p : PB) :
    ∀ S : Annotated,
      interp p S ≠ Except.error () ∧
      ∀ S' out, interp p S = Except.ok (some (S', out)) → Post S S' := by
  induction p with
  | takeN n =>
    intro S
    constructor
    · simp only [interp]; split <;> simp
    · intro S' out h
      simp only [interp] at h
      split at h
      · simp at h
      · simp only [Except.ok.injEq, Option.some.injEq, Prod.mk.injEq] at h
        obtain ⟨hS, _⟩ := h
        rw [← hS]
        exact post_same rfl rfl rfl
  | succeed v =>
    intro S
    refine ⟨by simp [interp], ?_⟩
    intro S' out h
    simp only [interp, Except.ok.injEq, Option.some.injEq, Prod.mk.injEq] at h
    rw [← h.1]
    exact post_refl S
  | failP =>
    intro S
    refine ⟨by simp [interp], ?_⟩
    intro S' out h
    simp [interp] at h
  | parseA inner ann ih =>
    intro S
    have ih0 := ih { S with tree := [] }
    simp only [interp, parseE]
    cases hI : interp inner { S with tree := ([] : List Node) } with
    | error e =>
      cases e
      exact absurd hI ih0.1
    | ok o =>
      cases o with
      | none =>
        refine ⟨by simp, ?_⟩
        intro S' out h
        simp at h
      | some pr =>
        obtain ⟨span, out0⟩ := pr
        have hP := ih0.2 span out0 hI
        obtain ⟨hle, ⟨ext, hap⟩, new, htree, hidx, hmem⟩ := hP
        have htree' : span.tree = new := by simpa using htree
        have hap' : span.appendices = S.appendices ++ ext := by simpa using hap
        have hle' : S.next_index ≤ span.next_index := by simpa using hle
        have hidx' : treeIndices new =
            List.range' S.next_index (span.next_index - S.next_index) := by
          simpa using hidx
        dsimp only
        rw [htree']
        cases new with
        | nil =>
          have hk : span.next_index - S.next_index = 0 := by
            have hr : List.range' S.next_index (span.next_index - S.next_index) = [] := by
              rw [← hidx']; rfl
            exact List.range'_eq_nil.mp hr
          have hg : span.next_index = S.next_index := by omega
          refine ⟨by simp, ?_⟩
          intro S' out h
          simp only [Except.ok.injEq, Option.some.injEq, Prod.mk.injEq] at h
          rw [← h.1]
          refine ⟨by simp; omega, ⟨ext, by simpa using hap'⟩, ?_⟩
          refine ⟨_, rfl, ?_, ?_⟩
          · have h1 : span.next_index + 1 - S.next_index = 1 := by omega
            simp [treeIndices, nodeIndices, h1]
          · simp [nodeIndices]
        | cons c cs =>
          dsimp only
          have hne : treeIndices (c :: cs) ≠ [] := by
            simp only [treeIndices]
            intro hcontra
            exact hmem c (by simp) (List.append_eq_nil.mp hcontra).1
          have hkpos : 0 < span.next_index - S.next_index := by
            by_contra hcon
            apply hne
            rw [hidx']
            have h0 : span.next_index - S.next_index = 0 := by omega
            rw [h0]
            exact List.range'_eq_nil.mpr rfl
          have hnz : ¬ (span.next_index = 0) := by omega
          rw [if_neg hnz]
          refine ⟨by simp, ?_⟩
          intro S' out h
          simp only [Except.ok.injEq, Option.some.injEq, Prod.mk.injEq] at h
          rw [← h.1]
          refine ⟨by simp; omega, ⟨ext, by simpa using hap'⟩, ?_⟩
          refine ⟨_, rfl, ?_, ?_⟩
          · simp only [treeIndices, nodeIndices, List.append_nil]
            exact hidx'
          · intro n hn
            simp only [List.mem_singleton] at hn
            rw [hn]
            exact hne
  | withA k v inner ih =>
    intro S
    simp only [interp]
    cases hI : interp inner S with
    | error e =>
      cases e
      exact absurd hI (ih S).1
    | ok o =>
      cases o with
      | none =>
        refine ⟨by simp, ?_⟩
        intro S' out h
        simp at h
      | some pr =>
        obtain ⟨sp, o0⟩ := pr
        refine ⟨by simp, ?_⟩
        intro S' out h
        simp only [Except.ok.injEq, Option.some.injEq, Prod.mk.injEq] at h
        rw [← h.1]
        exact post_trans ((ih S).2 sp o0 hI)
          (post_same (by simp [Annotated.withData]) (by simp [Annotated.withData])
            (by simp [Annotated.withData]))
  | andThen p q ihp ihq =>
    intro S
    simp only [interp]
    cases hI : interp p S with
    | error e =>
      cases e
      exact absurd hI (ihp S).1
    | ok o =>
      cases o with
      | none =>
        refine ⟨by simp, ?_⟩
        intro S' out h
        simp at h
      | some pr =>
        obtain ⟨sp, o0⟩ := pr
        refine ⟨(ihq sp).1, ?_⟩
        intro S' out h
        exact post_trans ((ihp S).2 sp o0 hI) ((ihq sp).2 S' out h)
  | altA primary alternate ihp iha =>
    intro S
    simp only [interp]
    cases hA : interp alternate S with
    | error e =>
      cases e
      exact absurd hA (iha S).1
    | ok o =>
      cases o with
      | none =>
        refine ⟨by simp, ?_⟩
        intro S' out h
        simp at h
      | some pr =>
        obtain ⟨sa, aOut⟩ := pr
        dsimp only
        obtain ⟨_, ⟨ext1, hap1⟩, _⟩ := (iha S).2 sa aOut hA
        have postm : Post S { S with appendices := sa.appendices } := by
          refine ⟨Nat.le_refl _, ⟨ext1, by simpa using hap1⟩, [], by simp, ?_, by simp⟩
          simp [treeIndices]
        cases hP2 : interp primary { S with appendices := sa.appendices } with
        | error e =>
          cases e
          exact absurd hP2 (ihp _).1
        | ok o2 =>
          cases o2 with
          | none =>
            refine ⟨by simp, ?_⟩
            intro S' out h
            simp at h
          | some pr2 =>
            obtain ⟨sp, pOut⟩ := pr2
            dsimp only
            refine ⟨by simp, ?_⟩
            intro S' out h
            simp only [Except.ok.injEq, Option.some.injEq, Prod.mk.injEq] at h
            rw [← h.1]
            exact post_trans postm ((ihp _).2 sp pOut hP2)
  | flagsA num anns ihn =>
    intro S
    simp only [interp]
    cases hN : interp num S with
    | error e =>
      cases e
      exact absurd hN (ihn S).1
    | ok o =>
      cases o with
      | none =>
        refine ⟨by simp, ?_⟩
        intro S' out h
        simp at h
      | some pr =>
        obtain ⟨sp, out0⟩ := pr
        dsimp only
        obtain ⟨S2, hF, hPost2⟩ := flagsFold_sound out0 anns sp
        rw [hF]
        refine ⟨by simp, ?_⟩
        intro S' out h
        simp only [Except.ok.injEq, Option.some.injEq, Prod.mk.injEq] at h
        rw [← h.1]
        exact post_trans ((ihn S).2 sp out0 hN) hPost2
  | tagA t inner ih =>
    intro S
    simp only [interp]
    cases hI : interp inner S with
    | error e =>
      cases e
      exact absurd hI (ih S).1
    | ok o =>
      cases o with
      | none =>
        refine ⟨by simp, ?_⟩
        intro S' out h
        simp at h
      | some pr =>
        obtain ⟨sp, o0⟩ := pr
        refine ⟨by simp, ?_⟩
        intro S' out h
        simp only [Except.ok.injEq, Option.some.injEq, Prod.mk.injEq] at h
        rw [← h.1]
        exact post_trans ((ih S).2 sp o0 hI)
          (post_same (by simp [Annotated.add_tag]) (by simp [Annotated.add_tag])
            (by simp [Annotated.add_tag]))
  | insertA ann =>
    intro S
    refine ⟨by simp [interp], ?_⟩
    intro S' out h
    simp only [interp, Except.ok.injEq, Option.some.injEq, Prod.mk.injEq] at h
    rw [← h.1]
    cases hL : S.last_range with
    | none =>
      have : S.insert ann = S := by simp [Annotated.insert, hL]
      rw [this]
      exact post_refl S
    | some pr =>
      obtain ⟨f, t⟩ := pr
      have hins : S.insert ann =
          { S with appendices := S.appendices ++
            [{ from_ := f, to_ := t, place := Place.after,
               information := staticInformation ann }] } := by
        simp [Annotated.insert, hL]
      rw [hins]
      refine ⟨by simp, ⟨_, rfl⟩, [], by simp, by simp [treeIndices], by simp⟩

theorem treeIndices_map_virt (l : List Appendix) :
    treeIndices (l.map appToVirtual) = [] := by
  induction l with
  | nil => rfl
  | cons a rest ih => simp [treeIndices, appToVirtual, nodeIndices, ih]

theorem treeIndices_injApp (app : List Appendix) :
    (tree : List Node) → treeIndices (injectAppendices app tree) = treeIndices tree
  | [] => by simp [injectAppendices]
  | Node.group p loc info ch :: rest => by
    simp only [injectAppendices, treeIndices, nodeIndices]
    rw [treeIndices_injApp app ch, treeIndices_injApp app rest]
  | Node.leaf (Leaf.real r) :: rest => by
    simp only [injectAppendices, treeIndices, nodeIndices]
    rw [treeIndices_append, treeIndices_map_virt, treeIndices_injApp app rest]
    simp
  | Node.leaf (Leaf.virtual v) :: rest => by
    simp only [injectAppendices, treeIndices, nodeIndices]
    rw [treeIndices_injApp app rest]

theorem treeIndices_injPaths (pre : List String) (i : Nat) :
    (tree : List Node) → treeIndices (injectPathsAux pre i tree) = treeIndices tree
  | [] => by simp [injectPathsAux]
  | Node.leaf (Leaf.real r) :: rest => by
    simp only [injectPathsAux, treeIndices, nodeIndices]
    rw [treeIndices_injPaths pre (i + 1) rest]
  | Node.leaf (Leaf.virtual v) :: rest => by
    simp only [injectPathsAux, treeIndices, nodeIndices]
    rw [treeIndices_injPaths pre (i + 1) rest]
  | Node.group p loc info ch :: rest => by
    simp only [injectPathsAux, treeIndices, nodeIndices]
    rw [treeIndices_injPaths (p ++ pre ++ [toString i]) 0 ch,
      treeIndices_injPaths pre (i + 1) rest]

mutual

theorem nodeIndices_bake (i : Nat) :
    (n : Node) → nodeIndices (bakeAnns i n) = nodeIndices n
  | Node.leaf (Leaf.real r) => by simp [bakeAnns, nodeIndices]
  | Node.leaf (Leaf.virtual v) => by simp [bakeAnns, nodeIndices]
  | Node.group p loc info ch => by
    simp only [bakeAnns, nodeIndices]
    exact treeIndices_bakeList 0 ch

theorem treeIndices_bakeList (i : Nat) :
    (ch : List Node) → treeIndices (bakeList i ch) = treeIndices ch
  | [] => by simp [bakeList]
  | c :: rest => by
    simp only [bakeList, treeIndices]
    rw [nodeIndices_bake i c, treeIndices_bakeList (i + 1) rest]

end

theorem treeIndices_bakeMap (l : List Node) :
    treeIndices (l.map (bakeAnns 0)) = treeIndices l := by
  induction l with
  | nil => rfl
  | cons n rest ih => simp only [List.map, treeIndices, nodeIndices_bake 0 n, ih]

/-- The real-leaf indices of the finalized tree are those of the raw
parsed tree: the three finalization passes insert only virtual leaves
and rewrite only paths and labels. -/
theorem treeIndices_annotations (s : Annotated) :
    treeIndices (s.annotations).nodes = treeIndices s.tree := by
  simp only [Annotated.annotations, injectPaths]
  rw [treeIndices_bakeMap, treeIndices_injPaths, treeIndices_injApp]

/-- C4: for every tree produced by a successful run of a grammar parser
from a fresh span, the real-leaf indices of the finalized tree, in parse
order, are exactly `0, 1, …, K-1` for some `K`: real leaves consume dense
indices, groups and virtual leaves consume none. -/
theorem c4_index_density (p : PB) (bytes : List Nat) (S' : Annotated) (out : Nat)
    (h : interp p (Annotated.new bytes) = Except.ok (some (S', out))) :
    ∃ K, (S'.annotations).real_leaves.map (fun r => r.location.index) = List.range K := by
  obtain ⟨_, _, new, htree, hidx, _⟩ := (interp_sound p (Annotated.new bytes)).2 S' out h
  refine ⟨S'.next_index, ?_⟩
  have h1 : S'.tree = new := by simpa [Annotated.new] using htree
  have h2 : treeIndices new = List.range' 0 S'.next_index := by
    simpa [Annotated.new] using hidx
  rw [Tree.real_leaves, treeLeaves_indices, treeIndices_annotations, h1, h2,
    List.range_eq_range']

/-- Sample annotation used by concrete witnesses: label only. -/
def annN : Ann Nat :=
  { label := "A", value := Make.empty, doc := none, refs := [], tags := [],
    splain := Make.empty }

/-- Span reached after parsing one byte of `[5]` under a `parse` wrapper
(used by concrete witnesses). -/
def wSpan : Annotated :=
  { next_index := 1
    next_offset := 1
    next_fragment := []
    tree := [Node.leaf (Leaf.real
      { path := []
        location := { from_ := 0, to_ := 1, index := 0 }
        information :=
          { label := "A", data := [], tags := [], refs := [],
            value := Value.nil, doc := none, splain := none } })]
    last_range := some (0, 1)
    data := []
    tags := []
    appendices := [] }

/-- C4 witness: a concrete one-leaf run has dense indices. -/
theorem c4_witness : ∃ K,
    (Annotated.annotations wSpan).real_leaves.map (fun r => r.location.index) =
      List.range K :=
  c4_index_density (PB.parseA (PB.takeN 1) annN) [5] wSpan 5 rfl

/-- Span straight after the primitive one-byte reader consumed `[5]`
(used by concrete witnesses as the inner parser's exit span). -/
def wSpan0 : Annotated :=
  { next_index := 0
    next_offset := 1
    next_fragment := []
    tree := []
    last_range := none
    data := []
    tags := []
    appendices := [] }

/-- C2: on a successful inner run, `parse` appends a real leaf (inner tree
empty: location is entry offset to exit offset with the entry index, and
the returned index is one greater) or a group (children are exactly the
inner tree, `index_to` is the exit index minus one, and the index is not
incremented). -/
theorem c2_parse_leaf_group (q : PB) (ann : Ann Nat) (S S' : Annotated) (out : Nat)
    (h : interp q { S with tree := [] } = Except.ok (some (S', out))) :
    (S'.tree = [] →
      S'.next_index = S.next_index ∧
      ∃ info, interp (PB.parseA q ann) S = Except.ok (some
        ({ next_index := S'.next_index + 1
           next_offset := S'.next_offset
           next_fragment := S'.next_fragment
           tree := S.tree ++ [Node.leaf (Leaf.real
             { path := []
               location :=
                 { from_ := S.next_offset, to_ := S'.next_offset, index := S.next_index }
               information := info })]
           last_range := some (S.next_offset, S'.next_offset)
           data := []
           tags := []
           appendices := S'.appendices }, out))) ∧
    (S'.tree ≠ [] →
      ∃ info, interp (PB.parseA q ann) S = Except.ok (some
        ({ next_index := S'.next_index
           next_offset := S'.next_offset
           next_fragment := S'.next_fragment
           tree := S.tree ++ [Node.group []
             { byte_from := S.next_offset, byte_to := S'.next_offset,
               index_from := S.next_index, index_to := S'.next_index - 1 }
             info S'.tree]
           last_range := some (S.next_offset, S'.next_offset)
           data := []
           tags := []
           appendices := S'.appendices }, out))) := by
  have hpost := (interp_sound q { S with tree := [] }).2 S' out h
  obtain ⟨hle, _, new, htree, hidx, hmem⟩ := hpost
  have htree' : S'.tree = new := by simpa using htree
  have hle' : S.next_index ≤ S'.next_index := by simpa using hle
  have hidx' : treeIndices new =
      List.range' S.next_index (S'.next_index - S.next_index) := by simpa using hidx
  constructor
  · intro hNil
    have hnew : new = [] := by rw [← htree']; exact hNil
    have hg : S'.next_index = S.next_index := by
      rw [hnew] at hidx'
      have hr : List.range' S.next_index (S'.next_index - S.next_index) = [] := by
        rw [← hidx']; rfl
      have := List.range'_eq_nil.mp hr
      omega
    refine ⟨hg, ?_⟩
    simp only [interp, parseE]
    rw [h]
    dsimp only
    rw [hNil]
    exact ⟨_, rfl⟩
  · intro hne
    have hnz : ¬ (S'.next_index = 0) := by
      have hne2 : treeIndices new ≠ [] := by
        cases hT : new with
        | nil => exact absurd (htree'.trans hT) hne
        | cons c cs =>
          simp only [treeIndices]
          intro hcontra
          exact hmem c (by rw [hT]; simp) (List.append_eq_nil.mp hcontra).1
      intro h0
      apply hne2
      rw [hidx']
      have hz : S'.next_index - S.next_index = 0 := by omega
      rw [hz]
      exact List.range'_eq_nil.mpr rfl
    simp only [interp, parseE]
    rw [h]
    dsimp only
    rw [htree']
    cases new with
    | nil => exact absurd htree' hne
    | cons c cs =>
      dsimp only
      rw [if_neg hnz]
      exact ⟨_, rfl⟩

/-- C2 witness: leaf case at a concrete one-byte input. -/
theorem c2_witness :
    wSpan0.next_index = (Annotated.new [5]).next_index ∧
    ∃ info, interp (PB.parseA (PB.takeN 1) annN) (Annotated.new [5]) = Except.ok (some
      ({ next_index := wSpan0.next_index + 1
         next_offset := wSpan0.next_offset
         next_fragment := wSpan0.next_fragment
         tree := (Annotated.new [5]).tree ++ [Node.leaf (Leaf.real
           { path := []
             location :=
               { from_ := (Annotated.new [5]).next_offset, to_ := wSpan0.next_offset,
                 index := (Annotated.new [5]).next_index }
             information := info })]
         last_range := some ((Annotated.new [5]).next_offset, wSpan0.next_offset)
         data := []
         tags := []
         appendices := wSpan0.appendices }, 5)) :=
  (c2_parse_leaf_group (PB.takeN 1) annN (Annotated.new [5]) wSpan0 5 rfl).1 rfl

/-- Node::information (tree.rs). -/
def Node.information : Node → Information
  | Node.group _ _ info _ => info
  | Node.leaf (Leaf.real r) => r.information
  | Node.leaf (Leaf.virtual v) => v.information

/-- C7 (amended): in `parse`, label, doc and refs are taken statically
from the annotation, value and splain are resolved by applying the
annotation to the inner output, and auxiliary data is the span's; but the
tags differ by node kind: a real leaf gets the annotation's tag closures
applied to the output (keeping those that yield a tag), while a group
gets the span's accumulated tags. -/
theorem c7_parse_fields (q : PB) (ann : Ann Nat) (S S' : Annotated) (out : Nat)
    (h : interp q { S with tree := [] } = Except.ok (some (S', out))) :
    (S'.tree = [] →
      ∃ S2 loc, interp (PB.parseA q ann) S = Except.ok (some (S2, out)) ∧
        S2.tree = S.tree ++ [Node.leaf (Leaf.real
          { path := []
            location := loc
            information :=
              { label := ann.label
                data := S'.data
                tags := ann.tags.filterMap (fun t => t.resolveTag out)
                refs := ann.refs
                value := ann.value.resolveValue out
                doc := ann.doc
                splain := ann.splain.resolveString out } })]) ∧
    (S'.tree ≠ [] →
      ∃ S2 loc, interp (PB.parseA q ann) S = Except.ok (some (S2, out)) ∧
        S2.tree = S.tree ++ [Node.group [] loc
          { label := ann.label
            data := S'.data
            tags := S'.tags
            refs := ann.refs
            value := ann.value.resolveValue out
            doc := ann.doc
            splain := ann.splain.resolveString out }
          S'.tree]) := by
  have hpost := (interp_sound q { S with tree := [] }).2 S' out h
  obtain ⟨hle, _, new, htree, hidx, hmem⟩ := hpost
  have htree' : S'.tree = new := by simpa using htree
  have hle' : S.next_index ≤ S'.next_index := by simpa using hle
  have hidx' : treeIndices new =
      List.range' S.next_index (S'.next_index - S.next_index) := by simpa using hidx
  constructor
  · intro hNil
    simp only [interp, parseE]
    rw [h]
    dsimp only
    rw [hNil]
    exact ⟨_, _, rfl, rfl⟩
  · intro hne
    have hnz : ¬ (S'.next_index = 0) := by
      have hne2 : treeIndices new ≠ [] := by
        cases hT : new with
        | nil => exact absurd (htree'.trans hT) hne
        | cons c cs =>
          simp only [treeIndices]
          intro hcontra
          exact hmem c (by rw [hT]; simp) (List.append_eq_nil.mp hcontra).1
      intro h0
      apply hne2
      rw [hidx']
      have hz : S'.next_index - S.next_index = 0 := by omega
      rw [hz]
      exact List.range'_eq_nil.mpr rfl
    simp only [interp, parseE]
    rw [h]
    dsimp only
    rw [htree']
    cases new with
    | nil => exact absurd htree' hne
    | cons c cs =>
      dsimp only
      rw [if_neg hnz]
      exact ⟨_, _, rfl, rfl⟩

/-- C7 witness: group case at a concrete input — the one-byte leaf
parser nested in two `parse` wrappers. -/
theorem c7_witness :
    ∃ S2 loc, interp (PB.parseA (PB.parseA (PB.takeN 1) annN) annN)
        (Annotated.new [5]) = Except.ok (some (S2, 5)) ∧
      S2.tree = (Annotated.new [5]).tree ++ [Node.group [] loc
        { label := annN.label
          data := wSpan.data
          tags := wSpan.tags
          refs := annN.refs
          value := annN.value.resolveValue 5
          doc := annN.doc
          splain := annN.splain.resolveString 5 }
        wSpan.tree] :=
  (c7_parse_fields (PB.parseA (PB.takeN 1) annN) annN (Annotated.new [5]) wSpan 5
    rfl).2 (by simp [wSpan])

/-- Tag used by the C7 counterexample. -/
def tagX : Tag := { label := "T", color := none, doc := none }

/-- Annotation with one static tag, used by the C7 counterexample. -/
def annT : Ann Nat :=
  { label := "G", value := Make.empty, doc := none, refs := [],
    tags := [Make.static tagX], splain := Make.empty }

/-- Final span of the C7 counterexample run: the produced group carries
no tags although its annotation declared one. -/
def c7Span : Annotated :=
  { next_index := 1
    next_offset := 1
    next_fragment := []
    tree := [Node.group []
      { byte_from := 0, byte_to := 1, index_from := 0, index_to := 0 }
      { label := "G", data := [], tags := [], refs := [],
        value := Value.nil, doc := none, splain := none }
      [Node.leaf (Leaf.real
        { path := []
          location := { from_ := 0, to_ := 1, index := 0 }
          information :=
            { label := "A", data := [], tags := [], refs := [],
              value := Value.nil, doc := none, splain := none } })]]
    last_range := some (0, 1)
    data := []
    tags := []
    appendices := [] }

/-- C7 counterexample: a `parse` wrapper with a one-tag annotation around
an inner parser that produces a child yields a group whose tags are the
span's (empty here), not the annotation's resolved tags, contradicting
the claim for groups. -/
theorem c7_counterexample :
    interp (PB.parseA (PB.parseA (PB.takeN 1) annN) annT) (Annotated.new [9]) =
      Except.ok (some (c7Span, 9)) ∧
    c7Span.tree.map (fun n => n.information.tags) = [[]] ∧
    annT.tags.filterMap (fun t => t.resolveTag 9) = [tagX] ∧
    ¬ ([[]] : List (List Tag)) = [[tagX]] :=
  ⟨rfl, rfl, rfl, by decide⟩

/-- C1: the decode function assembled by the `decoder!` macro returns
`some tree` iff the guard matches, the parser succeeds and the parser
leaves zero unconsumed bytes; in particular a successful parse with
residual bytes contributes no candidate. -/
theorem c1_decoder_contract (d : DecoderSpec) (b : Binary) :
    (∀ t, (mkDecoder d).decode b = some t ↔
      d.guard b = true ∧
      ∃ x out, interp d.parser (Annotated.new b.bytes) = Except.ok (some (x, out)) ∧
        x.next_fragment.length = 0 ∧ t = x.annotations) ∧
    (∀ x out, d.guard b = true →
      interp d.parser (Annotated.new b.bytes) = Except.ok (some (x, out)) →
      0 < x.next_fragment.length → (mkDecoder d).decode b = none) := by
  constructor
  · intro t
    constructor
    · intro h
      simp only [mkDecoder, DecoderSpec.decodeFn] at h
      by_cases hg : d.guard b
      · rw [if_pos hg] at h
        cases hI : interp d.parser (Annotated.new b.bytes) with
        | error e => rw [hI] at h; simp at h
        | ok o =>
          cases o with
          | none => rw [hI] at h; simp at h
          | some pr =>
            obtain ⟨x, out0⟩ := pr
            rw [hI] at h
            dsimp only at h
            by_cases hlen : 0 < x.next_fragment.length
            · rw [if_pos hlen] at h; simp at h
            · rw [if_neg hlen] at h
              simp only [Option.some.injEq] at h
              exact ⟨hg, x, out0, rfl, by omega, h.symm⟩
      · rw [if_neg hg] at h; simp at h
    · rintro ⟨hg, x, out0, hI, hlen, ht⟩
      simp only [mkDecoder, DecoderSpec.decodeFn]
      rw [if_pos hg, hI]
      dsimp only
      rw [if_neg (by omega), ht]
  · intro x out hg hI hlen
    simp only [mkDecoder, DecoderSpec.decodeFn]
    rw [if_pos hg, hI]
    dsimp only
    rw [if_pos hlen]

/-- Decoder spec used by the C1 witness: trivial guard, one-byte parser. -/
def c1D : DecoderSpec :=
  { title := "t", group := "g", symbol := "s", guard := fun _ => true,
    parser := PB.takeN 1 }

/-- Exit span of the C1 witness run: one residual byte left. -/
def c1X : Annotated :=
  { next_index := 0
    next_offset := 1
    next_fragment := [8]
    tree := []
    last_range := none
    data := []
    tags := []
    appendices := [] }

/-- C1 witness: a successful parse of `[7, 8]` that leaves one byte
unconsumed contributes no candidate. -/
theorem c1_witness : (mkDecoder c1D).decode (Binary.raw [7, 8]) = none :=
  (c1_decoder_contract c1D (Binary.raw [7, 8])).2 c1X 7 rfl rfl (by decide)

/-- The panic-faithful macro composite never panics and agrees with the
pure decode function (the parser interpreter cannot reach the
`unreachable!` of `flags` nor the index underflow of `parse`). -/
theorem decodeFnE_ok (d : DecoderSpec) (b : Binary) :
    d.decodeFnE b = Except.ok ((mkDecoder d).decode b) := by
  simp only [DecoderSpec.decodeFnE, mkDecoder, DecoderSpec.decodeFn]
  by_cases hg : d.guard b
  · rw [if_pos hg, if_pos hg]
    cases hI : interp d.parser (Annotated.new b.bytes) with
    | error e =>
      cases e
      exact absurd hI (interp_sound d.parser (Annotated.new b.bytes)).1
    | ok o => cases o with
      | none => rfl
      | some pr => rfl
  · rw [if_neg hg, if_neg hg]

theorem decodersRunE_ok (b : Binary) :
    ∀ ds : List DecoderSpec,
      decodersRunE ds b = Except.ok (candidatesFor (ds.map mkDecoder) b) := by
  intro ds
  induction ds with
  | nil => rfl
  | cons d rest ih =>
    simp only [decodersRunE, decodeFnE_ok d b, List.map, candidatesFor, List.filterMap]
    cases hD : (mkDecoder d).decode b with
    | none => simpa [candidatesFor] using ih
    | some t => simp only [ih, candidatesFor, Option.map]

theorem decode_binaries_cons (ds : List Decoder) (b : Binary) (rest : List Binary) :
    decode_binaries ds (b :: rest) = candidatesFor ds b ++ decode_binaries ds rest := by
  simp only [decode_binaries, List.flatMap_cons, List.filterMap_append, candidatesFor,
    List.filterMap_map]
  rfl

theorem decode_binariesE_ok (ds : List DecoderSpec) :
    ∀ bs : List Binary,
      decode_binariesE ds bs = Except.ok (decode_binaries (ds.map mkDecoder) bs) := by
  intro bs
  induction bs with
  | nil => simp [decode_binariesE, decode_binaries]
  | cons b rest ih =>
    simp only [decode_binariesE, decodersRunE_ok b ds, ih, decode_binaries_cons]

/-- C8: decoding never panics — for every input (the empty one and
undecodable ones included) the panic-faithful pipeline returns `ok` with
the (possibly empty) candidate list of the pure pipeline; parse failures
inside decoders never propagate to the caller. -/
theorem c8_decode_total (env : StrEnv) (ds : List DecoderSpec) (input : Input) :
    decode_inputE env ds input = Except.ok (decode_input env (ds.map mkDecoder) input) := by
  simp only [decode_inputE, decode_input]
  exact decode_binariesE_ok ds (input_to_binaries env input)

/-- C6: the appendix list is the only state a discarded clone can leave
behind: every successful parser run only appends to the shared appendix
list; `alt` runs the alternate on a clone sharing the appendix list,
discards that clone's span, and returns the primary's span run on the
original cursor with the alternate's appendix pushes visible — so
appendices inserted in the discarded branch survive, while cursor and
tree advance only through the primary. -/
theorem c6_alt_sharing :
    (∀ (p : PB) (S S' : Annotated) (out : Nat),
      interp p S = Except.ok (some (S', out)) →
      ∃ ext, S'.appendices = S.appendices ++ ext) ∧
    (∀ (primary alternate : PB) (S F : Annotated) (out : Nat),
      interp (PB.altA primary alternate) S = Except.ok (some (F, out)) →
      ∃ Sa aOut pOut,
        interp alternate S = Except.ok (some (Sa, aOut)) ∧
        interp primary { S with appendices := Sa.appendices } =
          Except.ok (some (F, pOut)) ∧
        out = Nat.pair pOut aOut ∧
        (∃ ext, Sa.appendices = S.appendices ++ ext) ∧
        ∀ a ∈ Sa.appendices, a ∈ F.appendices) := by
  constructor
  · intro p S S' out h
    exact ((interp_sound p S).2 S' out h).2.1
  · intro primary alternate S F out h
    simp only [interp] at h
    cases hA : interp alternate S with
    | error e => rw [hA] at h; simp at h
    | ok o =>
      cases o with
      | none => rw [hA] at h; simp at h
      | some pr =>
        obtain ⟨sa, aOut⟩ := pr
        rw [hA] at h
        dsimp only at h
        cases hP : interp primary { S with appendices := sa.appendices } with
        | error e => rw [hP] at h; simp at h
        | ok o2 =>
          cases o2 with
          | none => rw [hP] at h; simp at h
          | some pr2 =>
            obtain ⟨sp, pOut⟩ := pr2
            rw [hP] at h
            simp only [Except.ok.injEq, Option.some.injEq, Prod.mk.injEq] at h
            obtain ⟨hF, hOut⟩ := h
            obtain ⟨_, ⟨ext1, hext1⟩, _⟩ := (interp_sound alternate S).2 sa aOut hA
            obtain ⟨_, ⟨ext2, hext2⟩, _⟩ :=
              (interp_sound primary { S with appendices := sa.appendices }).2 sp pOut hP
            refine ⟨sa, aOut, pOut, rfl, ?_, hOut.symm, ⟨ext1, hext1⟩, ?_⟩
            · rw [← hF]
              exact hP
            · intro a ha
              rw [← hF, hext2]
              exact List.mem_append.mpr (Or.inl (by simpa using ha))

/-- C6 witness: a concrete `alt` run (`succeed` alternate, one-byte
primary). -/
theorem c6_witness :
    ∃ Sa aOut pOut,
      interp (PB.succeed 3) (Annotated.new [5]) = Except.ok (some (Sa, aOut)) ∧
      interp (PB.takeN 1)
          { Annotated.new [5] with appendices := Sa.appendices } =
        Except.ok (some (wSpan0, pOut)) ∧
      Nat.pair 5 3 = Nat.pair pOut aOut ∧
      (∃ ext, Sa.appendices = (Annotated.new [5]).appendices ++ ext) ∧
      ∀ a ∈ Sa.appendices, a ∈ wSpan0.appendices :=
  c6_alt_sharing.2 (PB.takeN 1) (PB.succeed 3) (Annotated.new [5]) wSpan0
    (Nat.pair 5 3) rfl

/-- Static annotation over no input value, used by insert witnesses. -/
def annE : Ann Empty :=
  { label := "V", value := Make.empty, doc := none, refs := [], tags := [],
    splain := Make.empty }

/-- C9: before any node is produced `last_range` is `none` (as on a fresh
span), the bookmark then captures `none`, and `insert` / `insert_at` are
silent no-ops: no appendix is pushed and the finalized tree is unchanged. -/
theorem c9_insert_noop (S : Annotated) (ann : Ann Empty) (bk : Bookmark)
    (h : S.last_range = none) :
    S.bookmark = { val := none } ∧
    S.insert ann = S ∧
    (bk.val = none → S.insert_at bk ann = S) ∧
    (S.insert ann).appendices = S.appendices ∧
    (S.insert ann).annotations = S.annotations ∧
    ∀ bs : List Nat, (Annotated.new bs).last_range = none := by
  have hIns : S.insert ann = S := by simp [Annotated.insert, h]
  refine ⟨by simp [Annotated.bookmark, h], hIns, ?_, by rw [hIns], by rw [hIns],
    fun bs => rfl⟩
  intro hb
  simp [Annotated.insert_at, hb]

/-- C9 witness: `insert` on a fresh two-byte span changes nothing. -/
theorem c9_witness : (Annotated.new [1, 2]).insert annE = Annotated.new [1, 2] :=
  (c9_insert_noop (Annotated.new [1, 2]) annE { val := none } rfl).2.1

/-- The baked child at position `i` is the input child at position `i`
baked with enumeration counter `j + i`. -/
theorem bakeList_get : ∀ (ch : List Node) (j i : Nat),
    (bakeList j ch)[i]? = (ch[i]?).map (fun c => bakeAnns (j + i) c) := by
  intro ch
  induction ch with
  | nil => intro j i; simp [bakeList]
  | cons c rest ih =>
    intro j i
    cases i with
    | zero => simp [bakeList]
    | succ n =>
      simp only [bakeList, List.getElem?_cons_succ]
      rw [ih (j + 1) n]
      have hj : j + 1 + n = j + (n + 1) := by omega
      rw [hj]

/-- C5 (amended): at finalization an "annotation" data entry replaces the
label of any node and is removed (this override wins on groups); a group
carrying "list" = "enumerate" without an override gets as label its
zero-based position among ALL its siblings (the index in its parent's
children list), not merely among the marker-carrying ones; root-level
groups are always baked with counter 0 whatever their position. -/
theorem c5_bake_labels (i : Nat) :
    (∀ r x, dataGet "annotation" r.information.data = some x →
      bakeAnns i (Node.leaf (Leaf.real r)) = Node.leaf (Leaf.real
        { r with information := { r.information with
            label := x, data := dataRemove "annotation" r.information.data } })) ∧
    (∀ v x, dataGet "annotation" v.information.data = some x →
      bakeAnns i (Node.leaf (Leaf.virtual v)) = Node.leaf (Leaf.virtual
        { v with information := { v.information with
            label := x, data := dataRemove "annotation" v.information.data } })) ∧
    (∀ p loc info ch x, dataGet "annotation" info.data = some x →
      bakeAnns i (Node.group p loc info ch) =
        Node.group p loc
          { info with label := x, data := dataRemove "annotation" info.data }
          (bakeList 0 ch)) ∧
    (∀ (ch : List Node) (j : Nat) p loc info gch,
      ch[j]? = some (Node.group p loc info gch) →
      dataGet "annotation" info.data = none →
      info.has_data "list" "enumerate" = true →
      (bakeList 0 ch)[j]? =
        some (Node.group p loc { info with label := toString j } (bakeList 0 gch))) ∧
    (∀ (roots : List Node) (j : Nat) p loc info gch,
      roots[j]? = some (Node.group p loc info gch) →
      dataGet "annotation" info.data = none →
      info.has_data "list" "enumerate" = true →
      (roots.map (bakeAnns 0))[j]? =
        some (Node.group p loc { info with label := toString 0 } (bakeList 0 gch))) := by
  refine ⟨?_, ?_, ?_, ?_, ?_⟩
  · intro r x h
    simp [bakeAnns, bakeLeafInfo, h]
  · intro v x h
    simp [bakeAnns, bakeLeafInfo, h]
  · intro p loc info ch x h
    simp [bakeAnns, h]
  · intro ch j p loc info gch hget hno hmark
    rw [bakeList_get ch 0 j, hget]
    have hz : (0 : Nat) + j = j := by omega
    simp only [Option.map_some, hz]
    simp [bakeAnns, hno, hmark]
  · intro roots j p loc info gch hget hno hmark
    rw [List.getElem?_map, hget]
    simp [bakeAnns, hno, hmark]

/-- Information without auxiliary data, used by the C5 input tree. -/
def plainInfoT : Information :=
  { label := "P", data := [], tags := [], refs := [], value := Value.nil,
    doc := none, splain := none }

/-- Information carrying the "list" = "enumerate" marker. -/
def enumInfoT : Information :=
  { label := "orig", data := [("list", "enumerate")], tags := [], refs := [],
    value := Value.nil, doc := none, splain := none }

/-- Real leaf inside the enumerated group of the C5 input tree. -/
def innerLeafT : Node :=
  Node.leaf (Leaf.real
    { path := [], location := { from_ := 1, to_ := 2, index := 1 },
      information := plainInfoT })

/-- First sibling of the C5 input tree: a real leaf without the marker. -/
def plainLeafT : Node :=
  Node.leaf (Leaf.real
    { path := [], location := { from_ := 0, to_ := 1, index := 0 },
      information := plainInfoT })

/-- Second sibling of the C5 input tree: a group carrying the marker. -/
def markedGroupT : Node :=
  Node.group [] { byte_from := 1, byte_to := 2, index_from := 1, index_to := 1 }
    enumInfoT [innerLeafT]

/-- C5 parent: an unmarked leaf sibling followed by the marked group. -/
def c5ParentT : Node :=
  Node.group [] { byte_from := 0, byte_to := 2, index_from := 0, index_to := 1 }
    plainInfoT [plainLeafT, markedGroupT]

/-- C5 witness: the marked group at child position 1 is baked with
label "1". -/
theorem c5_witness :
    (bakeList 0 [plainLeafT, markedGroupT])[1]? =
      some (Node.group []
        { byte_from := 1, byte_to := 2, index_from := 1, index_to := 1 }
        { enumInfoT with label := toString 1 } (bakeList 0 [innerLeafT])) :=
  (c5_bake_labels 0).2.2.2.1 [plainLeafT, markedGroupT] 1 []
    { byte_from := 1, byte_to := 2, index_from := 1, index_to := 1 }
    enumInfoT [innerLeafT] rfl rfl rfl

/-- C5 counterexample: among the siblings of `c5ParentT` only the second
one carries the enumerate marker, so the claim predicts label "0" for it;
baking gives label "1" — the position among all siblings. -/
theorem c5_counterexample :
    bakeAnns 0 c5ParentT =
      Node.group [] { byte_from := 0, byte_to := 2, index_from := 0, index_to := 1 }
        plainInfoT
        [plainLeafT,
         Node.group [] { byte_from := 1, byte_to := 2, index_from := 1, index_to := 1 }
           { enumInfoT with label := "1" } [innerLeafT]] ∧
    List.filter (fun n => n.information.has_data "list" "enumerate")
      [plainLeafT, markedGroupT] = [markedGroupT] ∧
    ¬ ("1" : String) = "0" := by
  refine ⟨?_, rfl, by decide⟩
  simp [bakeAnns, bakeList, bakeLeafInfo, dataGet, dataRemove, Information.has_data,
    c5ParentT, plainLeafT, markedGroupT, innerLeafT, enumInfoT, plainInfoT]
  rfl

/-- Appendix match extended with an information equality test. -/
def appMatchesInfo (f t : Nat) (info : Information) (a : Appendix) : Bool :=
  appMatches f t a && decide (a.information = info)

theorem realLeavesL_cons_group (p : List String) (loc : GroupLocation)
    (info : Information) (ch rest : List Node) :
    realLeavesL (Node.group p loc info ch :: rest) =
      realLeavesL ch ++ realLeavesL rest := by
  simp [realLeavesL, treeLeavesL, nodeLeaves, List.filterMap_append]

theorem realLeavesL_cons_real (r : RealLeaf) (rest : List Node) :
    realLeavesL (Node.leaf (Leaf.real r) :: rest) = r :: realLeavesL rest := by
  simp [realLeavesL, treeLeavesL, nodeLeaves]

theorem realLeavesL_cons_virt (v : VirtualLeaf) (rest : List Node) :
    realLeavesL (Node.leaf (Leaf.virtual v) :: rest) = realLeavesL rest := by
  simp [realLeavesL, treeLeavesL, nodeLeaves]

/-- Number of virtual leaves carrying `info` that injection adds: one per
real leaf of the tree and per appendix whose place is After, whose range
equals that leaf's range and whose information is `info`. -/
def addedVirtCount (info : Information) (app : List Appendix) (tree : List Node) : Nat :=
  ((realLeavesL tree).map (fun r =>
    (app.filter (fun a =>
      appMatchesInfo r.location.from_ r.location.to_ info a)).length)).sum

theorem treeVirtCount_mapVirt (info : Information) :
    ∀ l : List Appendix,
      treeVirtCount info (l.map appToVirtual) =
        (l.filter (fun a => decide (a.information = info))).length := by
  intro l
  induction l with
  | nil => simp [treeVirtCount]
  | cons a rest ih =>
    by_cases h : a.information = info
    · simp [treeVirtCount, nodeVirtCount, appToVirtual, List.filter_cons, h, ih]
      omega
    · simp [treeVirtCount, nodeVirtCount, appToVirtual, List.filter_cons, h, ih]

theorem treeVirtCount_inject (info : Information) (app : List Appendix) :
    (tree : List Node) →
      treeVirtCount info (injectAppendices app tree) =
        treeVirtCount info tree + addedVirtCount info app tree
  | [] => by simp [injectAppendices, treeVirtCount, addedVirtCount, realLeavesL,
      treeLeavesL]
  | Node.group p loc i2 ch :: rest => by
    simp only [injectAppendices, treeVirtCount, nodeVirtCount,
      treeVirtCount_inject info app ch, treeVirtCount_inject info app rest,
      addedVirtCount, realLeavesL_cons_group, List.map_append, List.sum_append]
    omega
  | Node.leaf (Leaf.real r) :: rest => by
    simp only [injectAppendices, treeVirtCount, nodeVirtCount]
    rw [treeVirtCount_append, treeVirtCount_mapVirt, List.filter_filter,
      treeVirtCount_inject info app rest]
    simp only [addedVirtCount, realLeavesL_cons_real, List.map_cons, List.sum_cons]
    simp only [appMatchesInfo]
    simp only [Bool.and_comm]
    omega
  | Node.leaf (Leaf.virtual v) :: rest => by
    simp only [injectAppendices, treeVirtCount, nodeVirtCount,
      treeVirtCount_inject info app rest, addedVirtCount, realLeavesL_cons_virt]
    omega

theorem injApp_drop (ap : Appendix) (app1 app2 : List Appendix) :
    (tree : List Node) →
    (∀ r ∈ realLeavesL tree,
      appMatches r.location.from_ r.location.to_ ap = false) →
    injectAppendices (app1 ++ ap :: app2) tree = injectAppendices (app1 ++ app2) tree
  | [], _ => by simp [injectAppendices]
  | Node.group p loc i2 ch :: rest, h => by
    have hch : ∀ r ∈ realLeavesL ch,
        appMatches r.location.from_ r.location.to_ ap = false := by
      intro r hr
      exact h r (by rw [realLeavesL_cons_group]; exact List.mem_append.mpr (Or.inl hr))
    have hrest : ∀ r ∈ realLeavesL rest,
        appMatches r.location.from_ r.location.to_ ap = false := by
      intro r hr
      exact h r (by rw [realLeavesL_cons_group]; exact List.mem_append.mpr (Or.inr hr))
    simp only [injectAppendices, injApp_drop ap app1 app2 ch hch,
      injApp_drop ap app1 app2 rest hrest]
  | Node.leaf (Leaf.real r) :: rest, h => by
    have hr : appMatches r.location.from_ r.location.to_ ap = false :=
      h r (by rw [realLeavesL_cons_real]; simp)
    have hrest : ∀ r2 ∈ realLeavesL rest,
        appMatches r2.location.from_ r2.location.to_ ap = false := by
      intro r2 hr2
      exact h r2 (by rw [realLeavesL_cons_real]; simp [hr2])
    simp only [injectAppendices, injApp_drop ap app1 app2 rest hrest,
      List.filter_append, List.filter_cons, hr]
    simp
  | Node.leaf (Leaf.virtual v) :: rest, h => by
    have hrest : ∀ r2 ∈ realLeavesL rest,
        appMatches r2.location.from_ r2.location.to_ ap = false := by
      intro r2 hr2
      exact h r2 (by rw [realLeavesL_cons_virt]; exact hr2)
    simp only [injectAppendices, injApp_drop ap app1 app2 rest hrest]

/-- C10: an appendix materializes as a virtual leaf only immediately
after a real leaf whose byte range equals its own exactly; per real leaf,
exactly the matching appendices are inserted right after it (in list
order), so an appendix matching several real leaves is duplicated after
each of them, and an appendix whose range matches no real leaf is
silently dropped (removing it from the list leaves the injected tree
unchanged). -/
theorem c10_appendix_materialization :
    (∀ (info : Information) (app : List Appendix) (tree : List Node),
      treeVirtCount info (injectAppendices app tree) =
        treeVirtCount info tree + addedVirtCount info app tree) ∧
    (∀ (app : List Appendix) (r : RealLeaf) (rest : List Node),
      injectAppendices app (Node.leaf (Leaf.real r) :: rest) =
        Node.leaf (Leaf.real r) ::
          ((app.filter (appMatches r.location.from_ r.location.to_)).map appToVirtual
            ++ injectAppendices app rest)) ∧
    (∀ (ap : Appendix) (app1 app2 : List Appendix) (tree : List Node),
      (∀ r ∈ realLeavesL tree,
        appMatches r.location.from_ r.location.to_ ap = false) →
      injectAppendices (app1 ++ ap :: app2) tree =
        injectAppendices (app1 ++ app2) tree) := by
  refine ⟨?_, ?_, ?_⟩
  · intro info app tree
    exact treeVirtCount_inject info app tree
  · intro app r rest
    simp [injectAppendices]
  · intro ap app1 app2 tree h
    exact injApp_drop ap app1 app2 tree h

/-- Appendix used by the C10 witness: its range (5, 6) matches no real
leaf of the sample tree. -/
def apFar : Appendix :=
  { from_ := 5, to_ := 6, place := Place.after, information := plainInfoT }

/-- C10 witness: dropping the non-matching appendix from a singleton list
leaves injection over a one-leaf tree unchanged. -/
theorem c10_witness :
    injectAppendices ([] ++ apFar :: []) [plainLeafT] =
      injectAppendices ([] ++ []) [plainLeafT] :=
  c10_appendix_materialization.2.2 apFar [] [] [plainLeafT]
    (by
      intro r hr
      have h0 : realLeavesL [plainLeafT] =
          [{ path := [], location := { from_ := 0, to_ := 1, index := 0 },
             information := plainInfoT }] := by
        simp [plainLeafT, realLeavesL, treeLeavesL, nodeLeaves]
      rw [h0] at hr
      simp only [List.mem_singleton] at hr
      rw [hr]
      decide)

/-- C3: string inputs are tried by the four string decoders in the fixed
order hex, Bech32-without-checksum, Base58Check, Base64, keeping the
successes in that order; no Raw candidate arises from a string input,
while a binary input gets Raw appended as the very last candidate; a
string that is both valid hex and valid Base64 yields the hex binary
before the Base64 binary, and decode therefore emits the hex-derived
candidates (in decoder registration order) before the Base64-derived
ones. -/
theorem c3_input_order (env : StrEnv) :
    (∀ s : String, input_to_binaries env (Input.string s) =
      [string_to_hex env s, string_to_bech32 env s, string_to_base58 env s,
        string_to_base64 env s].filterMap id) ∧
    (∀ (s : String) (bs : List Nat),
      Binary.raw bs ∉ input_to_binaries env (Input.string s)) ∧
    (∀ b : List Nat, ∃ pre,
      input_to_binaries env (Input.binary b) = pre ++ [Binary.raw b] ∧
      ∀ x ∈ pre, ∀ bs, x ≠ Binary.raw bs) ∧
    (∀ (s : String) (h b4 : List Nat),
      env.hexDec s = some h → env.base64Dec s = some b4 →
      ∃ mid, input_to_binaries env (Input.string s) =
        Binary.hex h :: (mid ++ [Binary.base64 b4])) ∧
    (∀ (ds : List Decoder) (bs : List Binary),
      decode_binaries ds bs = bs.flatMap (fun b => candidatesFor ds b)) ∧
    (∀ (ds : List Decoder) (s : String) (h b4 : List Nat),
      env.hexDec s = some h → env.base64Dec s = some b4 →
      ∃ midc, decode_input env ds (Input.string s) =
        candidatesFor ds (Binary.hex h) ++ midc ++
          candidatesFor ds (Binary.base64 b4)) := by
  have helem : ∀ (s : String) (o : Option Binary), o ∈ try_decode_string env s →
      ∀ bs, o ≠ some (Binary.raw bs) := by
    intro s o ho bs
    simp only [try_decode_string, List.mem_cons, List.mem_singleton,
      List.not_mem_nil, or_false] at ho
    rcases ho with rfl | rfl | rfl | rfl
    · simp [string_to_hex, Option.map_eq_some']
    · simp [string_to_bech32, Option.map_eq_some']
    · simp [string_to_base58, Option.map_eq_some']
    · simp [string_to_base64, Option.map_eq_some']
  have hmemNotRaw : ∀ (s : String) (x : Binary),
      x ∈ (try_decode_string env s).filterMap id → ∀ bs, x ≠ Binary.raw bs := by
    intro s x hx bs
    rw [List.mem_filterMap] at hx
    obtain ⟨o, ho, hid⟩ := hx
    simp only [id] at hid
    intro hcontra
    subst hcontra
    exact helem s o ho bs hid
  have hdecomp : ∀ ds bs, decode_binaries ds bs =
      bs.flatMap (fun b => candidatesFor ds b) := by
    intro ds bs
    induction bs with
    | nil => rfl
    | cons b rest ih => rw [decode_binaries_cons, List.flatMap_cons, ih]
  have hstring : ∀ (s : String) (h b4 : List Nat),
      env.hexDec s = some h → env.base64Dec s = some b4 →
      ∃ mid, input_to_binaries env (Input.string s) =
        Binary.hex h :: (mid ++ [Binary.base64 b4]) := by
    intro s h b4 hh h64
    refine ⟨[string_to_bech32 env s, string_to_base58 env s].filterMap id, ?_⟩
    simp only [input_to_binaries, try_decode_string, string_to_hex, string_to_base64,
      hh, h64, Option.map_some]
    cases hB : string_to_bech32 env s <;> cases h58 : string_to_base58 env s <;>
      simp [List.filterMap_cons, hB, h58]
  refine ⟨fun s => rfl, ?_, ?_, hstring, hdecomp, ?_⟩
  · intro s bs hmem
    exact hmemNotRaw s (Binary.raw bs) hmem bs rfl
  · intro b
    refine ⟨(((env.utf8Dec b).map (fun s => try_decode_string env s)).getD []).filterMap id,
      ?_, ?_⟩
    · simp only [input_to_binaries, List.filterMap_append]
      simp [List.filterMap_cons]
    · intro x hx bs
      cases hU : env.utf8Dec b with
      | none =>
        rw [hU] at hx
        simp at hx
      | some s =>
        rw [hU] at hx
        dsimp only [Option.map, Option.getD] at hx
        exact hmemNotRaw s x hx bs
  · intro ds s h b4 hh h64
    obtain ⟨mid, hmid⟩ := hstring s h b4 hh h64
    refine ⟨mid.flatMap (fun b => candidatesFor ds b), ?_⟩
    rw [decode_input, hdecomp, hmid]
    simp [List.flatMap_cons, List.flatMap_append, List.append_assoc]

/-- Concrete decoder environment for the C3 witness: "00" is both valid
hex and valid Base64. -/
def envW : StrEnv :=
  { hexDec := fun s => if s = "00" then some [0] else none
    bech32Dec := fun _ => none
    base58Dec := fun _ => none
    base64Dec := fun s => if s = "00" then some [211] else none
    utf8Dec := fun _ => none }

/-- C3 witness: with a decoder registry of one trivial decoder, the
hex-derived candidates of "00" precede the Base64-derived ones. -/
theorem c3_witness :
    ∃ midc, decode_input envW [mkDecoder c1D] (Input.string "00") =
      candidatesFor [mkDecoder c1D] (Binary.hex [0]) ++ midc ++
        candidatesFor [mkDecoder c1D] (Binary.base64 [211]) :=
  (c3_input_order envW).2.2.2.2.2 [mkDecoder c1D] "00" [0] [211] (by simp [envW])
    (by simp [envW])

end Bitsplain
